import Mathlib

set_option maxRecDepth 8000

/-!
Shallow embedding of the `angela` Merkle-tree repository
(`src/include/angela/Checksum.hpp`, `src/include/angela/Merkle.hpp`).

Bytes are modelled as `Nat` values (< 256 where it matters), byte strings as
`List Nat`.  The C++ code is generic over a checksum algorithm
(`concepts::IsChecksumAlgo`); the embedding is correspondingly parameterised
by a function `hash : List Nat → List Nat` mapping a byte string to the
digest's bytes.  The reference algorithm `Sha256` calls OpenSSL's SHA-256
(an external collaborator, not repository code); it is modelled below by a
byte-level SHA-256 implementation following FIPS 180-4.
-/

namespace Angela

/-! ### Checksum.hpp : `ChecksumBase::hexDigest`

`hexDigest` streams every byte through
`ss << std::hex << std::setw(2) << std::setfill('0') << static_cast<int>(d)`:
the value is printed in lowercase hexadecimal with no prefix, left-padded
with `'0'` to a minimum width of 2. -/

/-- Lowercase hexadecimal digit character, as printed by `std::hex`
(`operator<<` uses lowercase digits by default). -/
def hexDigitChar (n : Nat) : Char :=
  if n < 10 then Char.ofNat (48 + n) else Char.ofNat (87 + n)

/-- Hexadecimal representation of `n` (most significant digit first, no
leading zeros, at least one digit), fuelled so that it evaluates in the
kernel; fuel `n + 1` always suffices. -/
def hexReprF : Nat → Nat → List Char
  | 0, _ => []
  | fuel + 1, n =>
    if n < 16 then [hexDigitChar n]
    else hexReprF fuel (n / 16) ++ [hexDigitChar (n % 16)]

/-- Digits printed for the integer value `n` by `ss << std::hex << n`. -/
def hexRepr (n : Nat) : List Char := hexReprF (n + 1) n

/-- One byte rendered by `ss << std::hex << std::setw(2) << std::setfill('0')`:
the hex digits of the value, left-padded with `'0'` to width 2. -/
def byteToHex (b : Nat) : List Char :=
  List.replicate (2 - (hexRepr b).length) '0' ++ hexRepr b

/-- `ChecksumBase::hexDigest` (Checksum.hpp lines 45-51): the bytes of the
digest rendered in order, each as two zero-padded lowercase hex digits,
concatenated with no separators. -/
def hexDigest (data : List Nat) : String :=
  ⟨(data.map byteToHex).foldr (· ++ ·) []⟩

/-! ### `Sha256::hash` (external collaborator)

`Sha256::hash` (Checksum.hpp lines 60-71) delegates to OpenSSL's SHA-256,
which is outside the repository.  The definitions below model it from the
published SHA-256 algorithm (FIPS 180-4), operating on bytes as `Nat`. -/

/-- 2^32, the modulus of 32-bit word arithmetic. -/
def M32 : Nat := 4294967296

/-- Right rotation of a 32-bit word by `k` positions. -/
def rotr (k n : Nat) : Nat := ((n >>> k) ||| (n <<< (32 - k))) % M32

/-- SHA-256 choice function `Ch(x,y,z) = (x ∧ y) ⊕ (¬x ∧ z)`;
for `x < 2^32` the complement is `x ⊕ 0xffffffff`. -/
def ch (x y z : Nat) : Nat := (x &&& y) ^^^ ((x ^^^ 4294967295) &&& z)

/-- SHA-256 majority function. -/
def maj (x y z : Nat) : Nat := (x &&& y) ^^^ (x &&& z) ^^^ (y &&& z)

/-- SHA-256 Σ0. -/
def bsig0 (x : Nat) : Nat := rotr 2 x ^^^ rotr 13 x ^^^ rotr 22 x

/-- SHA-256 Σ1. -/
def bsig1 (x : Nat) : Nat := rotr 6 x ^^^ rotr 11 x ^^^ rotr 25 x

/-- SHA-256 σ0. -/
def ssig0 (x : Nat) : Nat := rotr 7 x ^^^ rotr 18 x ^^^ (x >>> 3)

/-- SHA-256 σ1. -/
def ssig1 (x : Nat) : Nat := rotr 17 x ^^^ rotr 19 x ^^^ (x >>> 10)

/-- The 64 SHA-256 round constants (FIPS 180-4 section 4.2.2, written in
decimal: the first four are 0x428a2f98, 0x71374491, 0xb5c0fbcf, 0xe9b5dba5,
and so on). -/
def K : List Nat :=
  [1116352408, 1899447441, 3049323471, 3921009573, 961987163, 1508970993,
   2453635748, 2870763221, 3624381080, 310598401, 607225278, 1426881987,
   1925078388, 2162078206, 2614888103, 3248222580, 3835390401, 4022224774,
   264347078, 604807628, 770255983, 1249150122, 1555081692, 1996064986,
   2554220882, 2821834349, 2952996808, 3210313671, 3336571891, 3584528711,
   113926993, 338241895, 666307205, 773529912, 1294757372, 1396182291,
   1695183700, 1986661051, 2177026350, 2456956037, 2730485921, 2820302411,
   3259730800, 3345764771, 3516065817, 3600352804, 4094571909, 275423344,
   430227734, 506948616, 659060556, 883997877, 958139571, 1322822218,
   1537002063, 1747873779, 1955562222, 2024104815, 2227730452, 2361852424,
   2428436474, 2756734187, 3204031479, 3329325298]

/-- The SHA-256 initial hash value (FIPS 180-4 section 5.3.3, in decimal:
0x6a09e667, 0xbb67ae85, and so on). -/
def H0 : List Nat :=
  [1779033703, 3144134277, 1013904242, 2773480762,
   1359893119, 2600822924, 528734635, 1541459225]

/-- Big-endian 8-byte encoding of `n`. -/
def be64 (n : Nat) : List Nat :=
  [(n >>> 56) % 256, (n >>> 48) % 256, (n >>> 40) % 256, (n >>> 32) % 256,
   (n >>> 24) % 256, (n >>> 16) % 256, (n >>> 8) % 256, n % 256]

/-- Big-endian 4-byte encoding of a 32-bit word. -/
def be32 (n : Nat) : List Nat :=
  [(n >>> 24) % 256, (n >>> 16) % 256, (n >>> 8) % 256, n % 256]

/-- SHA-256 message padding: append `0x80`, then zero bytes until the length
is 56 mod 64, then the bit length as a big-endian 64-bit integer. -/
def padMsg (msg : List Nat) : List Nat :=
  msg ++ 128 :: (List.replicate ((119 - msg.length % 64) % 64) 0 ++ be64 (8 * msg.length))

/-- Group bytes into big-endian 32-bit words. -/
def bytesToWords : List Nat → List Nat
  | a :: b :: c :: d :: rest => (((a * 256 + b) * 256 + c) * 256 + d) :: bytesToWords rest
  | _ => []

/-- Extend a 16-word message block by `k` further schedule words. -/
def scheduleExt : Nat → List Nat → List Nat
  | 0, ws => ws
  | k + 1, ws =>
    let m := ws.length
    scheduleExt k (ws ++ [(ssig1 (ws.getD (m - 2) 0) + ws.getD (m - 7) 0 +
                           ssig0 (ws.getD (m - 15) 0) + ws.getD (m - 16) 0) % M32])

/-- One SHA-256 compression round applied to the working state
`[a,b,c,d,e,f,g,h]`, where `kw` is the round constant plus schedule word. -/
def compressStep : List Nat → Nat → List Nat
  | a :: b :: c :: d :: e :: f :: g :: h :: _, kw =>
    let t1 := (h + bsig1 e + ch e f g + kw) % M32
    let t2 := (bsig0 a + maj a b c) % M32
    [(t1 + t2) % M32, a, b, c, (d + t1) % M32, e, f, g]
  | st, _ => st

/-- SHA-256 compression of a single 16-word block into the running hash. -/
def compressBlock (hs : List Nat) (block : List Nat) : List Nat :=
  let w := scheduleExt 48 block
  let kw := (K.zip w).map fun p => (p.1 + p.2) % M32
  let st := kw.foldl compressStep hs
  (hs.zip st).map fun p => (p.1 + p.2) % M32

/-- Split a word sequence into 16-word blocks (fuelled; `ws.length` fuel
always suffices). -/
def chunks16 : Nat → List Nat → List (List Nat)
  | 0, _ => []
  | _, [] => []
  | fuel + 1, w :: rest => (w :: rest).take 16 :: chunks16 fuel ((w :: rest).drop 16)

/-- SHA-256 of a byte string: 32 digest bytes.  This models
`Sha256::hash` (Checksum.hpp lines 60-71), whose body is OpenSSL's SHA-256. -/
def sha256 (msg : List Nat) : List Nat :=
  let ws := bytesToWords (padMsg msg)
  ((chunks16 ws.length ws).foldl compressBlock H0).foldr (fun w acc => be32 w ++ acc) []

/-- Bytes of a textual string (the C++ code hashes `std::string_view` data). -/
def strBytes (s : String) : List Nat := s.data.map Char.toNat

/-! ### Merkle.hpp : data model -/

/-- `MerkleNodeData<T>` (Merkle.hpp lines 16-22): a checksum (its digest
bytes), the `chunk_offset` into the original stream, and the `chunk_size`
(byte span) the subtree covers. -/
structure MerkleNodeData where
  checksum : List Nat
  chunk_offset : Nat
  chunk_size : Nat
deriving DecidableEq, Repr, BEq

/-- `MerkleNode<T>` (Merkle.hpp lines 26-45): node data plus `left`/`right`
child pointers (`shared_ptr`, null for leaves).  The `parent` member is a
`weak_ptr` that no code in the repository ever assigns, so it is not a field
here; `parentLock` below models reading it. -/
inductive MerkleNode : Type where
  | mk : MerkleNodeData → Option MerkleNode → Option MerkleNode → MerkleNode

/-- The `data` member of a node. -/
def MerkleNode.data : MerkleNode → MerkleNodeData
  | .mk d _ _ => d

/-- The `left` child pointer. -/
def MerkleNode.left : MerkleNode → Option MerkleNode
  | .mk _ l _ => l

/-- The `right` child pointer. -/
def MerkleNode.right : MerkleNode → Option MerkleNode
  | .mk _ _ r => r

/-- `parent.lock()`: the `parent` weak_ptr is default-constructed and never
assigned anywhere in the repository (`make_tree` sets only `node->left` and
`node->right`, Merkle.hpp lines 135-136), so locking it always yields null. -/
def MerkleNode.parentLock (_ : MerkleNode) : Option MerkleNode := none

/-- `MerkleNode::isRoot` (Merkle.hpp line 35): `!parent.lock()`. -/
def MerkleNode.isRoot (n : MerkleNode) : Bool := n.parentLock.isNone

/-- `MerkleNode::isLeaf` (Merkle.hpp line 36): `!left && !right`. -/
def MerkleNode.isLeaf (n : MerkleNode) : Bool := n.left.isNone && n.right.isNone

/-- `MerkleNode::operator==` (Merkle.hpp lines 38-44): compare root-ness,
then leaf-ness, then the `(checksum, chunk_offset, chunk_size)` data
(defaulted member-wise equality).  Child subtrees are not compared. -/
def nodeEq (a b : MerkleNode) : Bool :=
  if a.isRoot != b.isRoot then false
  else if a.isLeaf != b.isLeaf then false
  else decide (a.data = b.data)

/-- `nodeMem x n`: `x` is a node of the subtree rooted at `n` (reachable
from `n` through `left`/`right` pointers, `n` itself included). -/
def nodeMem (x : MerkleNode) : MerkleNode → Prop
  | .mk d none none => x = .mk d none none
  | .mk d (some a) none => x = .mk d (some a) none ∨ nodeMem x a
  | .mk d none (some b) => x = .mk d none (some b) ∨ nodeMem x b
  | .mk d (some a) (some b) => x = .mk d (some a) (some b) ∨ nodeMem x a ∨ nodeMem x b

/-- All nodes of the subtree rooted at a node, in preorder. -/
def nodeList : MerkleNode → List MerkleNode
  | .mk d none none => [.mk d none none]
  | .mk d (some a) none => .mk d (some a) none :: nodeList a
  | .mk d none (some b) => .mk d none (some b) :: nodeList b
  | .mk d (some a) (some b) => .mk d (some a) (some b) :: (nodeList a ++ nodeList b)

/-- `MerkleTree` state relevant to comparison: the `root` shared_ptr,
null when no root was assigned. -/
structure MerkleTree where
  root : Option MerkleNode

/-- `MerkleTree::operator==` (Merkle.hpp line 61):
`(root && other.root) && *root == *other.root`. -/
def treeEq (t u : MerkleTree) : Bool :=
  match t.root, u.root with
  | some r, some s => nodeEq r s
  | _, _ => false

/-! ### Merkle.hpp : `generate_leaves` -/

/-- A fresh leaf node: digest of the chunk bytes, the stream offset where the
chunk starts, and the number of bytes actually read as its span. -/
def mkLeaf (hash : List Nat → List Nat) (chunk : List Nat) (off : Nat) : MerkleNode :=
  .mk ⟨hash chunk, off, chunk.length⟩ none none

/-- The read loop of `generate_leaves` (Merkle.hpp lines 81-98) for a
positive `chunk_size`: each iteration reads `min chunk_size remaining`
bytes; a non-empty read appends one leaf and advances `read_offset`; the
read that finds the stream exhausted produces no node and ends the loop.
Fuelled structural recursion; fuel `contents.length` suffices since each
step consumes at least one byte when `chunk_size ≥ 1`.  (For
`chunk_size = 0` the C++ loop never terminates; that behaviour is modelled
separately by `glStep`.) -/
def genLeavesGo (hash : List Nat → List Nat) (chunk_size : Nat) :
    Nat → List Nat → Nat → List MerkleNode
  | 0, _, _ => []
  | _, [], _ => []
  | fuel + 1, b :: rest, off =>
    mkLeaf hash ((b :: rest).take chunk_size) off ::
      genLeavesGo hash chunk_size fuel ((b :: rest).drop chunk_size)
        (off + ((b :: rest).take chunk_size).length)

/-- `MerkleTree::generate_leaves` (Merkle.hpp lines 73-101) on the byte
string held by the `istringstream`. -/
def generate_leaves (hash : List Nat → List Nat) (chunk_size : Nat)
    (contents : List Nat) : List MerkleNode :=
  if chunk_size = 0 then [] else genLeavesGo hash chunk_size contents.length contents 0

/-- The observable state of the `generate_leaves` loop: the stream's eof
flag, the running `read_offset`, the bytes not yet consumed, and the leaves
accumulated in `result`. -/
structure GLState where
  eofbit : Bool
  read_offset : Nat
  rem : List Nat
  leaves : List MerkleNode

/-- Loop state on entry to `generate_leaves`: fresh stream, no leaves. -/
def glInit (contents : List Nat) : GLState :=
  ⟨false, 0, contents, []⟩

/-- One iteration of the `while (!stream.eof())` loop in `generate_leaves`
(Merkle.hpp lines 81-98).  `stream.read(buf, chunk_size)` extracts
`min chunk_size remaining` bytes and sets eof exactly when the stream held
fewer than `chunk_size` bytes; a positive `gcount` pushes one leaf. -/
def glStep (hash : List Nat → List Nat) (chunk_size : Nat) (st : GLState) : GLState :=
  if st.eofbit then st
  else
    let chunk := st.rem.take chunk_size
    { eofbit := decide (st.rem.length < chunk_size)
      read_offset := st.read_offset + chunk.length
      rem := st.rem.drop chunk_size
      leaves := st.leaves ++ if chunk.length = 0 then [] else [mkLeaf hash chunk st.read_offset] }

/-! ### Merkle.hpp : `make_tree` -/

/-- Parent node built from an adjacent pair (Merkle.hpp lines 117-136):
digest of the two child digests concatenated (left first), offset of the
left child, span the sum of the children's spans; children linked. -/
def mkParent (hash : List Nat → List Nat) (l r : MerkleNode) : MerkleNode :=
  .mk ⟨hash (l.data.checksum ++ r.data.checksum),
       l.data.chunk_offset,
       l.data.chunk_size + r.data.chunk_size⟩ (some l) (some r)

/-- One reduction pass (the inner loop of `make_tree`, Merkle.hpp lines
112-144): pair adjacent nodes `(0,1), (2,3), …` while `i < size - 1`; when
the level count is odd, `push_back(prev.back())` carries the unpaired last
node up unchanged. -/
def reduceLevel (hash : List Nat → List Nat) : List MerkleNode → List MerkleNode
  | a :: b :: rest => mkParent hash a b :: reduceLevel hash rest
  | l => l

/-- `reduceIter hash k lvl`: `k` successive reduction passes. -/
def reduceIter (hash : List Nat → List Nat) : Nat → List MerkleNode → List MerkleNode
  | 0, lvl => lvl
  | k + 1, lvl => reduceIter hash k (reduceLevel hash lvl)

/-- Number of iterations of the outer loop of `make_tree`:
`for (auto _i = 0; _i < std::log2(leaves.size()); ++_i)` runs
`⌈log2 n⌉` times for `n ≥ 1` (the int counter is compared against the real
number `log2 n`) and 0 times for `n = 0` (`log2(0) = -inf`).  Fuelled
structural recursion via `clog2F`; fuel `n` suffices. -/
def clog2F : Nat → Nat → Nat
  | 0, _ => 0
  | _ + 1, 0 => 0
  | _ + 1, 1 => 0
  | fuel + 1, n + 2 => clog2F fuel ((n + 3) / 2) + 1

/-- The outer-loop iteration count of `make_tree` for a given leaf count. -/
def tree_height (n : Nat) : Nat := clog2F n n

/-- The condition of the `assert(tree.back().size() == 1)` sanity check at
the end of `make_tree` (Merkle.hpp line 149). -/
def make_tree_assert (hash : List Nat → List Nat) (leaves : List MerkleNode) : Bool :=
  (reduceIter hash (tree_height leaves.length) leaves).length == 1

/-- `MerkleTree::make_tree` (Merkle.hpp lines 104-152): run the reduction
passes and take the single node of the final level as root.  `none` models
the failure of the `assert(tree.back().size() == 1)` sanity check (with
`NDEBUG`, `tree.back().front()` on an empty final level is undefined
behaviour): no root is produced. -/
def make_tree (hash : List Nat → List Nat) (leaves : List MerkleNode) : Option MerkleNode :=
  match reduceIter hash (tree_height leaves.length) leaves with
  | [r] => some r
  | _ => none

/-- The `MerkleTree(std::string_view, std::size_t)` constructor (Merkle.hpp
lines 52-55): generate the leaves from the stream over `contents`, then
build the tree; the resulting root pointer. -/
def buildTree (hash : List Nat → List Nat) (contents : List Nat)
    (chunk_size : Nat) : Option MerkleNode :=
  make_tree hash (generate_leaves hash chunk_size contents)

/-- A checksum algorithm conforming to the `IsChecksumAlgo` contract
(deterministic, fixed 32-byte output): used to instantiate the algorithm
parameter on concrete inputs. -/
def hashZ : List Nat → List Nat := fun _ => List.replicate 32 0

/-- Per-node data invariant of a constructed tree: the digest has the
algorithm's output length `L`, and when the node has two children its
digest is the hash of the children's digests concatenated (left first, a
buffer of `2 × L` bytes), its offset is the left child's offset and its
span is the sum of the children's spans. -/
def nodeDataOk (hash : List Nat → List Nat) (L : Nat) (x : MerkleNode) : Prop :=
  x.data.checksum.length = L ∧
  ∀ l r, x.left = some l → x.right = some r →
    x.data.checksum = hash (l.data.checksum ++ r.data.checksum) ∧
    (l.data.checksum ++ r.data.checksum).length = 2 * L ∧
    x.data.chunk_offset = l.data.chunk_offset ∧
    x.data.chunk_size = l.data.chunk_size + r.data.chunk_size

/-! ### Helper lemmas -/

theorem clog2F_fuel_irrel : ∀ (n f g : Nat), n ≤ f → n ≤ g → clog2F f n = clog2F g n := by
  intro n
  induction n using Nat.strong_induction_on with
  | _ n ih =>
    intro f g hf hg
    cases n with
    | zero => cases f <;> cases g <;> rfl
    | succ m =>
      cases f with
      | zero => omega
      | succ f =>
        cases g with
        | zero => omega
        | succ g =>
          cases m with
          | zero => rfl
          | succ k =>
            show clog2F f ((k + 3) / 2) + 1 = clog2F g ((k + 3) / 2) + 1
            rw [ih ((k + 3) / 2) (by omega) f g (by omega) (by omega)]

theorem tree_height_two_le {n : Nat} (h : 2 ≤ n) :
    tree_height n = tree_height ((n + 1) / 2) + 1 := by
  obtain ⟨k, rfl⟩ : ∃ k, n = k + 2 := ⟨n - 2, by omega⟩
  show clog2F (k + 2) (k + 2) = clog2F ((k + 3) / 2) ((k + 3) / 2) + 1
  show clog2F (k + 1) ((k + 3) / 2) + 1 = clog2F ((k + 3) / 2) ((k + 3) / 2) + 1
  rw [clog2F_fuel_irrel ((k + 3) / 2) (k + 1) ((k + 3) / 2) (by omega) (by omega)]

theorem tree_height_eq_clog : ∀ n : Nat, tree_height n = Nat.clog 2 n := by
  intro n
  induction n using Nat.strong_induction_on with
  | _ n ih =>
    by_cases h : n ≤ 1
    · interval_cases n <;> simp [tree_height, clog2F, Nat.clog_of_right_le_one]
    · have h2 : 2 ≤ n := by omega
      rw [tree_height_two_le h2, ih ((n + 1) / 2) (by omega)]
      have := Nat.clog_of_two_le (b := 2) (by norm_num) h2
      simpa using this.symm

theorem reduceLevel_length (hash : List Nat → List Nat) :
    ∀ lvl : List MerkleNode, (reduceLevel hash lvl).length = (lvl.length + 1) / 2
  | [] => by simp [reduceLevel]
  | [_] => by simp [reduceLevel]
  | a :: b :: rest => by
    show (mkParent hash a b :: reduceLevel hash rest).length = _
    simp only [List.length_cons]
    rw [reduceLevel_length hash rest]
    omega

theorem reduceIter_length_one (hash : List Nat → List Nat) :
    ∀ (n : Nat) (lvl : List MerkleNode), lvl.length = n → 1 ≤ n →
      (reduceIter hash (tree_height n) lvl).length = 1 := by
  intro n
  induction n using Nat.strong_induction_on with
  | _ n ih =>
    intro lvl hlen h1
    by_cases h : n = 1
    · subst h
      show lvl.length = 1
      exact hlen
    · have h2 : 2 ≤ n := by omega
      rw [tree_height_two_le h2]
      show (reduceIter hash (tree_height ((n + 1) / 2)) (reduceLevel hash lvl)).length = 1
      exact ih ((n + 1) / 2) (by omega) (reduceLevel hash lvl)
        (by rw [reduceLevel_length hash lvl, hlen]) (by omega)

theorem make_tree_some (hash : List Nat → List Nat) (leaves : List MerkleNode)
    (h : leaves ≠ []) :
    ∃ r, make_tree hash leaves = some r ∧
      reduceIter hash (tree_height leaves.length) leaves = [r] := by
  have hlen : (reduceIter hash (tree_height leaves.length) leaves).length = 1 :=
    reduceIter_length_one hash leaves.length leaves rfl
      (by cases leaves with | nil => exact absurd rfl h | cons a l => simp)
  match hfin : reduceIter hash (tree_height leaves.length) leaves with
  | [r] => exact ⟨r, by rw [make_tree, hfin], rfl⟩
  | [] => rw [hfin] at hlen; simp at hlen
  | a :: b :: l => rw [hfin] at hlen; simp at hlen

theorem reduceLevel_spanSum (hash : List Nat → List Nat) :
    ∀ lvl : List MerkleNode,
      ((reduceLevel hash lvl).map fun n => n.data.chunk_size).sum
        = (lvl.map fun n => n.data.chunk_size).sum
  | [] => by simp [reduceLevel]
  | [_] => by simp [reduceLevel]
  | a :: b :: rest => by
    show ((mkParent hash a b :: reduceLevel hash rest).map fun n => n.data.chunk_size).sum = _
    simp only [List.map_cons, List.sum_cons]
    rw [reduceLevel_spanSum hash rest]
    show a.data.chunk_size + b.data.chunk_size + _ = _
    omega

theorem reduceLevel_head_offset (hash : List Nat → List Nat) (a : MerkleNode) :
    ∀ lvl : List MerkleNode, ∃ b m, reduceLevel hash (a :: lvl) = b :: m ∧
      b.data.chunk_offset = a.data.chunk_offset
  | [] => ⟨a, [], rfl, rfl⟩
  | b :: rest => ⟨mkParent hash a b, reduceLevel hash rest, rfl, rfl⟩

theorem reduceIter_inv (hash : List Nat → List Nat) :
    ∀ (k : Nat) (lvl : List MerkleNode), lvl ≠ [] →
      reduceIter hash k lvl ≠ [] ∧
      ((reduceIter hash k lvl).map fun n => n.data.chunk_size).sum
        = (lvl.map fun n => n.data.chunk_size).sum ∧
      ((reduceIter hash k lvl).head?.map fun n => n.data.chunk_offset)
        = (lvl.head?.map fun n => n.data.chunk_offset) := by
  intro k
  induction k with
  | zero => intro lvl h; exact ⟨h, rfl, rfl⟩
  | succ k ih =>
    intro lvl h
    match lvl, h with
    | a :: rest, _ =>
      obtain ⟨b, m, hbm, hoff⟩ := reduceLevel_head_offset hash a rest
      have hne : reduceLevel hash (a :: rest) ≠ [] := by rw [hbm]; simp
      have step : reduceIter hash (k + 1) (a :: rest) = reduceIter hash k (reduceLevel hash (a :: rest)) := rfl
      obtain ⟨h1, h2, h3⟩ := ih (reduceLevel hash (a :: rest)) hne
      refine ⟨by rw [step]; exact h1, ?_, ?_⟩
      · rw [step, h2, reduceLevel_spanSum]
      · rw [step, h3, hbm]
        simp [hoff]

theorem genLeavesGo_nil (hash : List Nat → List Nat) (c : Nat) :
    ∀ (fuel off : Nat), genLeavesGo hash c fuel [] off = []
  | 0, _ => rfl
  | _ + 1, _ => rfl

theorem genLeavesGo_spanSum (hash : List Nat → List Nat) (c : Nat) (hc : 1 ≤ c) :
    ∀ (fuel : Nat) (s : List Nat) (off : Nat), s.length ≤ fuel →
      ((genLeavesGo hash c fuel s off).map fun n => n.data.chunk_size).sum = s.length := by
  intro fuel
  induction fuel with
  | zero =>
    intro s off hs
    match s, hs with
    | [], _ => rfl
  | succ fuel ih =>
    intro s off hs
    match s with
    | [] => rfl
    | b :: rest =>
      show ((mkLeaf hash ((b :: rest).take c) off :: _).map fun n => n.data.chunk_size).sum = _
      simp only [List.map_cons, List.sum_cons]
      rw [ih ((b :: rest).drop c) (off + ((b :: rest).take c).length)
        (by rw [List.length_drop]; simp at hs ⊢; omega)]
      show ((b :: rest).take c).length + _ = _
      rw [List.length_take, List.length_drop]
      simp only [List.length_cons]
      omega

theorem generate_leaves_spanSum (hash : List Nat → List Nat) (c : Nat) (s : List Nat)
    (hc : 1 ≤ c) :
    ((generate_leaves hash c s).map fun n => n.data.chunk_size).sum = s.length := by
  rw [generate_leaves, if_neg (by omega)]
  exact genLeavesGo_spanSum hash c hc s.length s 0 le_rfl

theorem generate_leaves_cons (hash : List Nat → List Nat) (c : Nat) (b : Nat) (rest : List Nat)
    (hc : 1 ≤ c) :
    generate_leaves hash c (b :: rest) = mkLeaf hash ((b :: rest).take c) 0 ::
      genLeavesGo hash c rest.length ((b :: rest).drop c) (((b :: rest).take c).length) := by
  rw [generate_leaves, if_neg (by omega)]
  show mkLeaf hash ((b :: rest).take c) 0 ::
      genLeavesGo hash c rest.length ((b :: rest).drop c) (0 + ((b :: rest).take c).length) = _
  rw [Nat.zero_add]

theorem nodeMem_self : ∀ n : MerkleNode, nodeMem n n
  | .mk _ none none => by simp [nodeMem]
  | .mk _ (some _) none => by simp [nodeMem]
  | .mk _ none (some _) => by simp [nodeMem]
  | .mk _ (some _) (some _) => by simp [nodeMem]

theorem nodeMem_mkLeaf (hash : List Nat → List Nat) (chunk : List Nat) (off : Nat)
    (x : MerkleNode) : nodeMem x (mkLeaf hash chunk off) ↔ x = mkLeaf hash chunk off := by
  simp [mkLeaf, nodeMem]

theorem nodeMem_mkParent (hash : List Nat → List Nat) (a b x : MerkleNode) :
    nodeMem x (mkParent hash a b) ↔
      x = mkParent hash a b ∨ nodeMem x a ∨ nodeMem x b := by
  simp [mkParent, nodeMem]

theorem reduceLevel_forall {Q : MerkleNode → Prop} (hash : List Nat → List Nat)
    (hQ : ∀ a b, Q a → Q b → Q (mkParent hash a b)) :
    ∀ lvl : List MerkleNode, (∀ n ∈ lvl, Q n) → ∀ n ∈ reduceLevel hash lvl, Q n
  | [], _ => by simp [reduceLevel]
  | [x], h => by simpa [reduceLevel] using h
  | a :: b :: rest, h => by
    intro n hn
    rw [show reduceLevel hash (a :: b :: rest)
          = mkParent hash a b :: reduceLevel hash rest from rfl] at hn
    rcases List.mem_cons.mp hn with h1 | h2
    · subst h1
      exact hQ a b (h a (by simp)) (h b (by simp))
    · exact reduceLevel_forall hash hQ rest (fun m hm => h m (by simp [hm])) n h2

theorem reduceIter_forall {Q : MerkleNode → Prop} (hash : List Nat → List Nat)
    (hQ : ∀ a b, Q a → Q b → Q (mkParent hash a b)) :
    ∀ (k : Nat) (lvl : List MerkleNode), (∀ n ∈ lvl, Q n) → ∀ n ∈ reduceIter hash k lvl, Q n := by
  intro k
  induction k with
  | zero => intro lvl h; exact h
  | succ k ih =>
    intro lvl h
    show ∀ n ∈ reduceIter hash k (reduceLevel hash lvl), Q n
    exact ih (reduceLevel hash lvl) (reduceLevel_forall hash hQ lvl h)

theorem genLeavesGo_shape (hash : List Nat → List Nat) (c : Nat) :
    ∀ (fuel : Nat) (s : List Nat) (off : Nat) (n : MerkleNode),
      n ∈ genLeavesGo hash c fuel s off → ∃ chunk o, n = mkLeaf hash chunk o
  | 0, s, off, n => by
    intro h
    rw [show genLeavesGo hash c 0 s off = [] from by cases s <;> rfl] at h
    simp at h
  | _ + 1, [], _, _ => by
    intro h
    rw [genLeavesGo_nil] at h
    simp at h
  | fuel + 1, b :: rest, off, n => by
    intro h
    rw [show genLeavesGo hash c (fuel + 1) (b :: rest) off
          = mkLeaf hash ((b :: rest).take c) off ::
              genLeavesGo hash c fuel ((b :: rest).drop c)
                (off + ((b :: rest).take c).length) from rfl] at h
    rcases List.mem_cons.mp h with h1 | h2
    · exact ⟨_, _, h1⟩
    · exact genLeavesGo_shape hash c fuel _ _ n h2

theorem mkLeaf_pres (hash : List Nat → List Nat) (L : Nat)
    (hL : ∀ bs, (hash bs).length = L) (chunk : List Nat) (off : Nat) :
    ∀ x, nodeMem x (mkLeaf hash chunk off) → nodeDataOk hash L x := by
  intro x hx
  rw [nodeMem_mkLeaf] at hx
  subst hx
  refine ⟨hL _, ?_⟩
  intro l r hl _
  simp [mkLeaf, MerkleNode.left] at hl

theorem mkParent_pres (hash : List Nat → List Nat) (L : Nat)
    (hL : ∀ bs, (hash bs).length = L) (a b : MerkleNode)
    (ha : ∀ x, nodeMem x a → nodeDataOk hash L x)
    (hb : ∀ x, nodeMem x b → nodeDataOk hash L x) :
    ∀ x, nodeMem x (mkParent hash a b) → nodeDataOk hash L x := by
  intro x hx
  rcases (nodeMem_mkParent hash a b x).mp hx with h1 | h2 | h3
  · subst h1
    refine ⟨hL _, ?_⟩
    intro l r hl hr
    have hla : a = l := by simpa [mkParent, MerkleNode.left] using hl
    have hrb : b = r := by simpa [mkParent, MerkleNode.right] using hr
    subst hla
    subst hrb
    refine ⟨rfl, ?_, rfl, rfl⟩
    have h1 := (ha a (nodeMem_self a)).1
    have h2 := (hb b (nodeMem_self b)).1
    rw [List.length_append, h1, h2]
    omega
  · exact ha x h2
  · exact hb x h3

theorem reduceLevel_ne_nil (hash : List Nat → List Nat) (lvl : List MerkleNode)
    (h : lvl ≠ []) : reduceLevel hash lvl ≠ [] := by
  have hlen := reduceLevel_length hash lvl
  intro e
  rw [e] at hlen
  cases lvl with
  | nil => exact h rfl
  | cons a l => simp at hlen; omega

theorem getLast?_cons_of_ne_nil (x : MerkleNode) :
    ∀ l : List MerkleNode, l ≠ [] → (x :: l).getLast? = l.getLast?
  | [], h => absurd rfl h
  | _ :: _, _ => List.getLast?_cons_cons

theorem reduceLevel_getLast_odd (hash : List Nat → List Nat) :
    ∀ lvl : List MerkleNode, lvl.length % 2 = 1 →
      (reduceLevel hash lvl).getLast? = lvl.getLast?
  | [], h => by simp at h
  | [x], _ => by simp [reduceLevel]
  | a :: b :: rest, h => by
    have hr : rest.length % 2 = 1 := by simp [List.length_cons] at h; omega
    have hrest : rest ≠ [] := by intro e; rw [e] at hr; simp at hr
    have hred : reduceLevel hash rest ≠ [] := reduceLevel_ne_nil hash rest hrest
    show (mkParent hash a b :: reduceLevel hash rest).getLast? = _
    rw [getLast?_cons_of_ne_nil _ _ hred, reduceLevel_getLast_odd hash rest hr,
      List.getLast?_cons_cons, getLast?_cons_of_ne_nil _ _ hrest]

theorem glStep_zero_fixed (hash : List Nat → List Nat) (s : List Nat) :
    glStep hash 0 (glInit s) = glInit s := by
  simp [glStep, glInit]

theorem nodeEq_iff (a b : MerkleNode) :
    nodeEq a b = true ↔ a.isRoot = b.isRoot ∧ a.isLeaf = b.isLeaf ∧ a.data = b.data := by
  simp only [nodeEq]
  by_cases h1 : a.isRoot = b.isRoot <;> by_cases h2 : a.isLeaf = b.isLeaf <;>
    simp [h1, h2]

theorem byteToHex_fin :
    ∀ b : Fin 256, (byteToHex b.val).length = 2 ∧
      (byteToHex b.val).all (fun ch => ch.isDigit || (97 ≤ ch.toNat && ch.toNat ≤ 102)) = true := by
  decide

theorem hexChars_length : ∀ data : List Nat, (∀ b ∈ data, b < 256) →
    ((data.map byteToHex).foldr (· ++ ·) []).length = 2 * data.length := by
  intro data
  induction data with
  | nil => intro _; rfl
  | cons b rest ih =>
    intro h
    have hb : (byteToHex b).length = 2 := (byteToHex_fin ⟨b, h b (by simp)⟩).1
    show (byteToHex b ++ (rest.map byteToHex).foldr (· ++ ·) []).length = _
    rw [List.length_append, ih (fun x hx => h x (by simp [hx])), hb]
    simp [List.length_cons]
    omega

/-! ### The claims -/

/-- C1: for every non-empty input byte string `s` and chunk size `c ≥ 1`,
construction produces a root whose span (`chunk_size`) is `len s` and whose
offset (`chunk_offset`) is 0. -/
theorem c1_root_span (hash : List Nat → List Nat) (s : List Nat) (c : Nat)
    (hs : s ≠ []) (hc : 1 ≤ c) :
    ∃ r, buildTree hash s c = some r ∧
      r.data.chunk_size = s.length ∧ r.data.chunk_offset = 0 := by
  match s, hs with
  | b :: rest, _ =>
    have hcons := generate_leaves_cons hash c b rest hc
    have hne : generate_leaves hash c (b :: rest) ≠ [] := by rw [hcons]; simp
    obtain ⟨r, hmk, hfin⟩ := make_tree_some hash _ hne
    obtain ⟨_, h2, h3⟩ := reduceIter_inv hash
      (tree_height (generate_leaves hash c (b :: rest)).length)
      (generate_leaves hash c (b :: rest)) hne
    rw [hfin] at h2 h3
    refine ⟨r, by rw [buildTree]; exact hmk, ?_, ?_⟩
    · have hsum := generate_leaves_spanSum hash c (b :: rest) hc
      simp at h2
      rw [h2, hsum]
    · rw [hcons] at h3
      simp [mkLeaf, MerkleNode.data] at h3
      exact h3

theorem c1_root_span_witness :
    ([1, 2, 3] : List Nat) ≠ [] ∧ 1 ≤ 2 ∧
    ∃ r, buildTree hashZ [1, 2, 3] 2 = some r ∧
      r.data.chunk_size = ([1, 2, 3] : List Nat).length ∧ r.data.chunk_offset = 0 :=
  ⟨by decide, by decide, c1_root_span hashZ [1, 2, 3] 2 (by decide) (by decide)⟩

/-- C2: the claim says `chunk_size == 0` fails immediately with an
`InvalidConfiguration` error.  The code has no such check: with
`chunk_size = 0` every iteration of the read loop extracts zero bytes,
never sets the stream's eof flag, and never pushes a leaf, so the loop
state is a fixed point of the loop body: after any number `n` of
iterations the loop guard `!stream.eof()` is still true, no leaf has been
produced and no input has been consumed — the loop never terminates. -/
theorem c2_zero_chunk_loops (hash : List Nat → List Nat) (s : List Nat) (n : Nat) :
    (glStep hash 0)^[n] (glInit s) = glInit s ∧
    ((glStep hash 0)^[n] (glInit s)).eofbit = false ∧
    ((glStep hash 0)^[n] (glInit s)).leaves = [] ∧
    ((glStep hash 0)^[n] (glInit s)).rem = s := by
  have h := Function.iterate_fixed (glStep_zero_fixed hash s) n
  exact ⟨h, by rw [h]; rfl, by rw [h]; rfl, by rw [h]; rfl⟩

/-- C3: the claim says the empty input yields a well-defined rootless tree.
In the code, empty input gives zero leaves, the reduction loop runs zero
times (`log2(0) = -inf`), the final level is empty, and the
`assert(tree.back().size() == 1)` sanity check at Merkle.hpp:149 fails
(with `NDEBUG`, `tree.back().front()` on the empty level is undefined
behaviour): construction does not succeed. -/
theorem c3_empty_input (hash : List Nat → List Nat) (c : Nat) :
    generate_leaves hash c [] = [] ∧
    make_tree_assert hash [] = false ∧
    make_tree hash [] = none ∧
    buildTree hash [] c = none := by
  have hg : generate_leaves hash c [] = [] := by
    rw [generate_leaves]
    split
    · rfl
    · rfl
  exact ⟨hg, rfl, rfl, by rw [buildTree, hg]; exact rfl⟩

/-- C4: the claim says exactly one node (the root) has no parent and
`isRoot()` is true only for the root.  In the code, `make_tree` assigns
only `node->left` and `node->right` (Merkle.hpp lines 135-136) and never
`node->parent`, so in the 3-node tree built from the 2-byte input "ab"
with chunk size 1, all 3 nodes have a null parent and all 3 report
`isRoot()` as true. -/
theorem c4_all_nodes_parentless :
    ((buildTree sha256 (strBytes "ab") 1).map fun r =>
        ((nodeList r).length,
         ((nodeList r).filter fun n => n.parentLock.isNone).length,
         (nodeList r).all fun n => n.isRoot)) = some (3, 3, true) := by
  decide

/-- C5: in a constructed tree every internal node's digest is the hash of
the concatenation of its left child's digest bytes followed by its right
child's digest bytes (a buffer of `2 × L` bytes when the algorithm's
digest length is `L`), its offset is its left child's offset, and its span
is the sum of its children's spans. -/
theorem c5_internal_node_data (hash : List Nat → List Nat) (L : Nat) (s : List Nat)
    (c : Nat) (hc : 1 ≤ c) (hs : s ≠ []) (hL : ∀ bs, (hash bs).length = L) :
    ∃ r, buildTree hash s c = some r ∧ ∀ x, nodeMem x r → nodeDataOk hash L x := by
  match s, hs with
  | b :: rest, _ =>
    have hcons := generate_leaves_cons hash c b rest hc
    have hne : generate_leaves hash c (b :: rest) ≠ [] := by rw [hcons]; simp
    obtain ⟨r, hmk, hfin⟩ := make_tree_some hash _ hne
    refine ⟨r, by rw [buildTree]; exact hmk, ?_⟩
    have hleaf : ∀ n ∈ generate_leaves hash c (b :: rest),
        ∀ x, nodeMem x n → nodeDataOk hash L x := by
      intro n hn
      rw [generate_leaves, if_neg (by omega)] at hn
      obtain ⟨chunk, o, rfl⟩ := genLeavesGo_shape hash c _ _ _ n hn
      exact mkLeaf_pres hash L hL chunk o
    have hall := reduceIter_forall hash (mkParent_pres hash L hL)
      (tree_height (generate_leaves hash c (b :: rest)).length)
      (generate_leaves hash c (b :: rest)) hleaf
    exact hall r (by rw [hfin]; simp)

theorem c5_internal_node_data_witness :
    1 ≤ 1 ∧ ([7, 8] : List Nat) ≠ [] ∧ (∀ bs : List Nat, (hashZ bs).length = 32) ∧
    ∃ r, buildTree hashZ [7, 8] 1 = some r ∧ ∀ x, nodeMem x r → nodeDataOk hashZ 32 x :=
  ⟨le_rfl, by decide, fun _ => by simp [hashZ],
   c5_internal_node_data hashZ 32 [7, 8] 1 le_rfl (by decide) (fun _ => by simp [hashZ])⟩

/-- C6: when a level has an odd node count the last (unpaired) node is
carried into the next level unchanged (same node: digest, offset, span
untouched); in particular three leaves reduce as `(L0, L1) -> P0` with
`L2` carried, then `(P0, L2) -> root`, and the root's span is the sum of
the three leaf spans. -/
theorem c6_odd_tail (hash : List Nat → List Nat) :
    (∀ lvl : List MerkleNode, lvl.length % 2 = 1 →
        (reduceLevel hash lvl).getLast? = lvl.getLast?) ∧
    ∀ d0 d1 d2 : MerkleNodeData,
      reduceLevel hash [.mk d0 none none, .mk d1 none none, .mk d2 none none]
        = [mkParent hash (.mk d0 none none) (.mk d1 none none), .mk d2 none none] ∧
      make_tree hash [.mk d0 none none, .mk d1 none none, .mk d2 none none]
        = some (mkParent hash (mkParent hash (.mk d0 none none) (.mk d1 none none))
            (.mk d2 none none)) ∧
      (mkParent hash (mkParent hash (.mk d0 none none) (.mk d1 none none))
          (.mk d2 none none)).data.chunk_size
        = d0.chunk_size + d1.chunk_size + d2.chunk_size := by
  refine ⟨reduceLevel_getLast_odd hash, ?_⟩
  intro d0 d1 d2
  exact ⟨by simp [reduceLevel],
    by simp [make_tree, tree_height, clog2F, reduceIter, reduceLevel], rfl⟩

theorem c6_odd_tail_witness :
    ([mkLeaf hashZ [0] 0] : List MerkleNode).length % 2 = 1 ∧
    (reduceLevel hashZ [mkLeaf hashZ [0] 0]).getLast?
      = ([mkLeaf hashZ [0] 0] : List MerkleNode).getLast? :=
  ⟨by decide, (c6_odd_tail hashZ).1 [mkLeaf hashZ [0] 0] (by decide)⟩

/-- C7: two trees are equal exactly when both have a root and the roots
agree on root-ness, leaf-ness and their `(digest, offset, span)` data;
node comparison does not recurse into child subtrees; a rootless tree is
unequal to everything, including another rootless tree (hence itself). -/
theorem c7_tree_equality :
    (∀ t u : MerkleTree, treeEq t u = true ↔
        ∃ r s, t.root = some r ∧ u.root = some s ∧
          r.isRoot = s.isRoot ∧ r.isLeaf = s.isLeaf ∧ r.data = s.data) ∧
    (∀ t u : MerkleTree, t.root = none → treeEq t u = false ∧ treeEq u t = false) ∧
    treeEq ⟨none⟩ ⟨none⟩ = false ∧
    ∀ (d : MerkleNodeData) (a b a2 b2 : MerkleNode),
      nodeEq (.mk d (some a) (some b)) (.mk d (some a2) (some b2)) = true := by
  refine ⟨?_, ?_, rfl, ?_⟩
  · intro t u
    match t, u with
    | ⟨some r⟩, ⟨some s⟩ =>
      show nodeEq r s = true ↔ _
      rw [nodeEq_iff]
      constructor
      · rintro ⟨h1, h2, h3⟩
        exact ⟨r, s, rfl, rfl, h1, h2, h3⟩
      · rintro ⟨r2, s2, hr, hs, h1, h2, h3⟩
        have hr2 : r = r2 := by injection hr
        have hs2 : s = s2 := by injection hs
        subst hr2
        subst hs2
        exact ⟨h1, h2, h3⟩
    | ⟨some r⟩, ⟨none⟩ => simp [treeEq]
    | ⟨none⟩, ⟨some s⟩ => simp [treeEq]
    | ⟨none⟩, ⟨none⟩ => simp [treeEq]
  · rintro ⟨ru⟩ ⟨su⟩ h
    obtain rfl : ru = none := h
    cases su <;> exact ⟨rfl, rfl⟩
  · intro d a b a2 b2
    simp [nodeEq, MerkleNode.isRoot, MerkleNode.parentLock, MerkleNode.isLeaf,
      MerkleNode.left, MerkleNode.right, MerkleNode.data]

theorem c7_tree_equality_witness :
    (MerkleTree.mk none).root = none ∧
    treeEq ⟨none⟩ ⟨some (mkLeaf hashZ [0] 0)⟩ = false ∧
    treeEq ⟨some (mkLeaf hashZ [0] 0)⟩ ⟨none⟩ = false :=
  ⟨rfl, (c7_tree_equality.2.1 ⟨none⟩ ⟨some (mkLeaf hashZ [0] 0)⟩ rfl).1,
    (c7_tree_equality.2.1 ⟨none⟩ ⟨some (mkLeaf hashZ [0] 0)⟩ rfl).2⟩

/-- C8: for `n ≥ 1` leaves the reduction loop runs exactly `⌈log2 n⌉`
passes, each pass maps a level of `k` nodes to `⌈k/2⌉ = (k+1)/2` nodes,
the final level holds exactly one node (so the closing assertion holds and
a root exists), and for a single leaf no pass runs and the leaf itself is
the root. -/
theorem c8_pass_count (hash : List Nat → List Nat) (leaves : List MerkleNode)
    (h : leaves ≠ []) :
    tree_height leaves.length = Nat.clog 2 leaves.length ∧
    (∀ lvl : List MerkleNode, (reduceLevel hash lvl).length = (lvl.length + 1) / 2) ∧
    (reduceIter hash (Nat.clog 2 leaves.length) leaves).length = 1 ∧
    (∃ r, make_tree hash leaves = some r) ∧
    ∀ l : MerkleNode, make_tree hash [l] = some l := by
  have h1 : 1 ≤ leaves.length := by
    cases leaves with
    | nil => exact absurd rfl h
    | cons a l => simp
  refine ⟨tree_height_eq_clog _, reduceLevel_length hash, ?_, ?_, fun l => rfl⟩
  · rw [← tree_height_eq_clog]
    exact reduceIter_length_one hash leaves.length leaves rfl h1
  · obtain ⟨r, hmk, _⟩ := make_tree_some hash leaves h
    exact ⟨r, hmk⟩

theorem c8_pass_count_witness :
    ([mkLeaf hashZ [0] 0] : List MerkleNode) ≠ [] ∧
    (reduceIter hashZ (Nat.clog 2 ([mkLeaf hashZ [0] 0] : List MerkleNode).length)
        [mkLeaf hashZ [0] 0]).length = 1 :=
  ⟨by simp, (c8_pass_count hashZ [mkLeaf hashZ [0] 0] (by simp)).2.2.1⟩

/-- C9: when `c ≥ len s` and `s` is non-empty, exactly one leaf is
generated, and the root is that leaf: its digest is `hash s` directly, its
offset 0, its span `len s`, and it has no children (no pairing or
re-hashing occurs). -/
theorem c9_single_leaf (hash : List Nat → List Nat) (s : List Nat) (c : Nat)
    (hs : s ≠ []) (hlen : s.length ≤ c) :
    generate_leaves hash c s = [mkLeaf hash s 0] ∧
    buildTree hash s c = some (mkLeaf hash s 0) ∧
    (mkLeaf hash s 0).data.checksum = hash s ∧
    (mkLeaf hash s 0).data.chunk_offset = 0 ∧
    (mkLeaf hash s 0).data.chunk_size = s.length ∧
    (mkLeaf hash s 0).left = none ∧
    (mkLeaf hash s 0).right = none ∧
    (mkLeaf hash s 0).isLeaf = true := by
  match s, hs with
  | b :: rest, _ =>
    have hc : 1 ≤ c := by simp at hlen; omega
    have hgl : generate_leaves hash c (b :: rest) = [mkLeaf hash (b :: rest) 0] := by
      rw [generate_leaves_cons hash c b rest hc, List.take_of_length_le hlen,
        List.drop_eq_nil_of_le hlen, genLeavesGo_nil]
    refine ⟨hgl, ?_, rfl, rfl, rfl, rfl, rfl, rfl⟩
    rw [buildTree, hgl]
    rfl

theorem c9_single_leaf_witness :
    ([5, 6] : List Nat) ≠ [] ∧ ([5, 6] : List Nat).length ≤ 4 ∧
    buildTree hashZ [5, 6] 4 = some (mkLeaf hashZ [5, 6] 0) :=
  ⟨by decide, by decide, (c9_single_leaf hashZ [5, 6] 4 (by decide) (by decide)).2.1⟩

/-- C10: `hexDigest` renders every byte as exactly two lowercase
hexadecimal digits with zero padding, no separators and no prefix, so its
length is twice the digest byte length (64 characters for the 32-byte
SHA-256 digest); and `hash("hello world")` renders to the known SHA-256
reference hex digest. -/
theorem c10_hex_digest :
    (∀ b : Fin 256, (byteToHex b.val).length = 2 ∧
        (byteToHex b.val).all (fun ch => ch.isDigit || (97 ≤ ch.toNat && ch.toNat ≤ 102)) = true) ∧
    (∀ data : List Nat, (∀ b ∈ data, b < 256) → (hexDigest data).length = 2 * data.length) ∧
    (sha256 (strBytes "hello world")).length = 32 ∧
    hexDigest (sha256 (strBytes "hello world")) =
      "b94d27b9934d3e08a52e52d7da7dabfac484efe37a5380ee9088f7ace2efcde9" ∧
    (hexDigest (sha256 (strBytes "hello world"))).length = 64 := by
  refine ⟨byteToHex_fin, ?_, by decide, by decide, by decide⟩
  intro data h
  show ((data.map byteToHex).foldr (· ++ ·) []).length = 2 * data.length
  exact hexChars_length data h

theorem c10_hex_digest_witness :
    (∀ b ∈ ([0, 171, 255] : List Nat), b < 256) ∧
    (hexDigest [0, 171, 255]).length = 2 * ([0, 171, 255] : List Nat).length :=
  ⟨by decide, c10_hex_digest.2.1 [0, 171, 255] (by decide)⟩

end Angela
